import Mathlib

/-!
Shallow embedding of the crypto_tui_ticker program (src/main.rs), together
with proofs about its ticker store, its sorting logic and its selection
logic.

Modelling conventions:
* An `f32` value is modelled by `F32`: either a rational number or NaN.
  The program only copies and compares these values, so no floating-point
  arithmetic has to be modelled.  `f32Cmp` models `f32::partial_cmp`,
  returning `none` exactly when an operand is NaN; the source unwraps this
  `Option` inside a sort comparator, so the unwrap panic surfaces as
  `none` of the monadic sort.
* `usize` subtraction is `Nat` subtraction guarded by `checkedSub`; a
  subtraction that would overflow models the Rust overflow panic as
  `none`.
* Rust `String` ordering (lexicographic on bytes) is modelled as
  lexicographic comparison of the code points (`lexCmp`), which agrees
  with byte order on UTF-8.
* `Vec::sort_by` is a stable sort; `sortByM` is a stable insertion sort in
  the `Option` monad.  For a total comparator every stable sort produces
  the same list, and a comparator call that panics (NaN operand) aborts
  the whole sort, modelled by `none`.
* Foreign widget state (ratatui `TableState`, `ScrollbarState`, the color
  palette values, tokio task handles) is kept only through the fields the
  program logic reads and writes: the selected index, the scroll position
  and the palette index.
-/

/-- Model of an `f32` value: a rational number or NaN.  The program never
does arithmetic on these values, it only copies and compares them. -/
inductive F32 where
  | num (val : ℚ)
  | nan
deriving DecidableEq

/-- Model of `f32::partial_cmp`: `none` exactly when an operand is NaN
(`-0.0` and `0.0` are identified, which `partial_cmp` treats as equal). -/
def f32Cmp : F32 → F32 → Option Ordering
  | F32.num a, F32.num b =>
      some (if a < b then Ordering.lt else if a = b then Ordering.eq else Ordering.gt)
  | _, _ => none

/-- Model of `>` on `f32`: false whenever an operand is NaN. -/
def fgt : F32 → F32 → Bool
  | F32.num a, F32.num b => decide (b < a)
  | _, _ => false

/-- Model of `<` on `f32`: false whenever an operand is NaN. -/
def flt : F32 → F32 → Bool
  | F32.num a, F32.num b => decide (a < b)
  | _, _ => false

/-- Three-way comparison on `Nat`, modelling the comparison of two bytes
or code points. -/
def natCmp (a b : Nat) : Ordering :=
  if a < b then Ordering.lt else if a = b then Ordering.eq else Ordering.gt

/-- Three-way comparison of two characters by code point. -/
def charCmp (a b : Char) : Ordering :=
  natCmp a.toNat b.toNat

/-- Lexicographic comparison of character lists; models Rust `String::cmp`
(lexicographic on bytes, which on UTF-8 agrees with code-point order). -/
def lexCmp : List Char → List Char → Ordering
  | [], [] => Ordering.eq
  | [], _ :: _ => Ordering.lt
  | _ :: _, [] => Ordering.gt
  | a :: as, b :: bs =>
      match charCmp a b with
      | Ordering.eq => lexCmp as bs
      | o => o

/-- The `HrTicker` struct of src/main.rs (lines 32-62): one instrument's
latest statistics, under the single-letter wire field names. -/
structure HrTicker where
  e : String            -- Event type
  E : Nat               -- Event time
  s : String            -- Symbol
  p : F32               -- Price change
  P : F32               -- Price change percent
  w : F32               -- Weighted average price
  c : F32               -- Last price
  Q : F32               -- Last quantity
  o : F32               -- Open price
  h : F32               -- High price
  l : F32               -- Low price
  v : String            -- Total traded base asset volume
  q : String            -- Total traded quote asset volume
  O : Nat               -- Statistics open time
  C : Nat               -- Statistics close time
  F : Nat               -- First trade ID
  L : Nat               -- Last trade ID
  n : Nat               -- Total number of trades
  previous_price : F32  -- serde(default = "default_previous_price")
deriving DecidableEq

/-- `default_previous_price` (src/main.rs lines 64-66): the serde default
used for `previous_price` when a record is deserialized from the feed. -/
def default_previous_price : F32 := F32.num 0

/-- The field-by-field update of an existing ticker performed by
`update_tickers` (src/main.rs lines 591-609): `previous_price` is set to
the pre-update `c`, the fields `p P w c Q o h l v q O C F L n` are taken
from the incoming record, and `e`, `E`, `s` are left untouched. -/
def mergeTicker (existing_ticker new_ticker : HrTicker) : HrTicker :=
  { existing_ticker with
    previous_price := existing_ticker.c
    p := new_ticker.p
    P := new_ticker.P
    w := new_ticker.w
    c := new_ticker.c
    Q := new_ticker.Q
    o := new_ticker.o
    h := new_ticker.h
    l := new_ticker.l
    v := new_ticker.v
    q := new_ticker.q
    O := new_ticker.O
    C := new_ticker.C
    F := new_ticker.F
    L := new_ticker.L
    n := new_ticker.n }

/-- One iteration of the `for new_ticker in new_tickers` loop of
`update_tickers` (src/main.rs lines 589-615): mutate the first stored
ticker with the same symbol in place, or push the record at the end. -/
def upsertOne : List HrTicker → HrTicker → List HrTicker
  | [], new_ticker => [new_ticker]
  | t :: ts, new_ticker =>
      if t.s = new_ticker.s then mergeTicker t new_ticker :: ts
      else t :: upsertOne ts new_ticker

/-- `update_tickers` (src/main.rs lines 586-616): apply a batch of incoming
records to the stored vector, in batch order. -/
def update_tickers (new_tickers : List HrTicker) (tickers : List HrTicker) : List HrTicker :=
  new_tickers.foldl upsertOne tickers

/-- The ingestion task (src/main.rs lines 652-656): starting from the empty
store, apply every received batch in arrival order via `update_tickers`. -/
def ingest (batches : List (List HrTicker)) : List HrTicker :=
  batches.foldl (fun store batch => update_tickers batch store) []

/-- `SortOrder` (src/main.rs lines 73-77). -/
inductive SortOrder where
  | Ascending
  | Descending
deriving DecidableEq

/-- `SortColumn` (src/main.rs lines 79-88). -/
inductive SortColumn where
  | Symbol
  | Last
  | PercentChange
  | Open
  | High
  | Low
  | Volume
deriving DecidableEq

/-- `Mode` (src/main.rs lines 168-173). -/
inductive Mode where
  | Running
  | Quit
deriving DecidableEq

/-- The `App` struct (src/main.rs lines 175-189).  The ratatui
`TableState` is kept through its selection (`state.selected()`), the
`ScrollbarState`, the concrete `TableColors` values and the tokio
`JoinHandle` (`chart_data`) are widget/runtime state with no bearing on
the program logic proved here and are omitted. -/
structure App where
  mode : Mode
  selected : Option Nat          -- state : TableState, its selected index
  scroll_position : Nat
  color_index : Nat
  ticker_length : Nat
  show_chart : Bool
  fetched_chart : Option String
  sort_order : SortOrder
  sort_column : SortColumn
  previous_prices : List (String × F32)  -- HashMap<String, f32>
deriving DecidableEq

/-- `App::new` (src/main.rs lines 192-208).  Note: `colors` is built from
`PALETTES[0]` there, but `color_index` is `2`; `set_colors` (called every
frame) rebuilds `colors` from `PALETTES[color_index]`. -/
def App.new : App :=
  { mode := Mode.Running
    selected := none             -- TableState::default() has no selection
    scroll_position := 0
    color_index := 2
    ticker_length := 25
    show_chart := false
    fetched_chart := none
    sort_order := SortOrder.Ascending
    sort_column := SortColumn.Symbol
    previous_prices := [] }

/-- `ITEM_HEIGHT` (src/main.rs line 164). -/
def ITEM_HEIGHT : Nat := 1

/-- Checked `usize` subtraction: `none` models the Rust overflow panic. -/
def checkedSub (a b : Nat) : Option Nat :=
  if b ≤ a then some (a - b) else none

/-- `App::next` (src/main.rs lines 232-246).  The `None` selection branch
yields index 0 without touching `ticker_length`; the `Some` branch
computes `ticker_length - 1`, which overflows when the table is empty. -/
def App.next (a : App) : Option App :=
  match a.selected with
  | some i =>
      match checkedSub a.ticker_length 1 with
      | none => none
      | some m =>
          let j := if m ≤ i then 0 else i + 1
          some { a with selected := some j
                        scroll_position := a.scroll_position + ITEM_HEIGHT }
  | none =>
      some { a with selected := some 0
                    scroll_position := a.scroll_position + ITEM_HEIGHT }

/-- `App::previous` (src/main.rs lines 248-262).  Both `ticker_length - 1`
(selected index 0 on an empty table) and `scroll_position -= ITEM_HEIGHT`
(scroll position 0) can overflow. -/
def App.previous (a : App) : Option App :=
  let oi : Option Nat :=
    match a.selected with
    | some i => if i = 0 then checkedSub a.ticker_length 1 else some (i - 1)
    | none => some 0
  match oi with
  | none => none
  | some i =>
      match checkedSub a.scroll_position ITEM_HEIGHT with
      | none => none
      | some sp => some { a with selected := some i, scroll_position := sp }

/-- Iterated application of `App.next` in the panic monad. -/
def nextIter : Nat → App → Option App
  | 0, a => some a
  | k + 1, a => (App.next a).bind (nextIter k)

/-- The comparator closure passed to `sort_by` for each `sort_column`
(src/main.rs lines 278-300).  The numeric columns call
`partial_cmp(..).unwrap()`: the `none` result of `f32Cmp` is the panic of
that unwrap. -/
def cmpForColumn (col : SortColumn) (a b : HrTicker) : Option Ordering :=
  match col with
  | SortColumn.Symbol => some (lexCmp a.s.data b.s.data)
  | SortColumn.Last => f32Cmp a.c b.c
  | SortColumn.PercentChange => f32Cmp a.P b.P
  | SortColumn.Open => f32Cmp a.o b.o
  | SortColumn.High => f32Cmp a.h b.h
  | SortColumn.Low => f32Cmp a.l b.l
  | SortColumn.Volume => some (lexCmp a.v.data b.v.data)

/-- Stable insertion of one element under a fallible comparator: the
element is placed before the first element it does not compare greater
than; a `none` comparison aborts (comparator panic). -/
def insertByM (cmp : HrTicker → HrTicker → Option Ordering) (x : HrTicker) :
    List HrTicker → Option (List HrTicker)
  | [] => some [x]
  | y :: ys =>
      match cmp x y with
      | none => none
      | some Ordering.gt => (insertByM cmp x ys).map (fun l => y :: l)
      | some _ => some (x :: y :: ys)

/-- Stable sort under a fallible comparator; models `Vec::sort_by` (for a
total comparator every stable sort returns this same list, and a
comparator panic aborts the sort). -/
def sortByM (cmp : HrTicker → HrTicker → Option Ordering) :
    List HrTicker → Option (List HrTicker)
  | [] => some []
  | x :: xs => (sortByM cmp xs).bind (insertByM cmp x)

/-- `App::sort_tickers` (src/main.rs lines 277-304): sort by the active
column's comparator, then reverse the whole vector when the order is
Descending. -/
def App.sort_tickers (app : App) (tickers : List HrTicker) : Option (List HrTicker) :=
  (sortByM (cmpForColumn app.sort_column) tickers).map
    (fun l => if app.sort_order = SortOrder.Descending then l.reverse else l)

/-- Follows the spec's words only (§4.4 rules this alternative out): a
descending sort implemented by a reversed comparator instead of a global
reversal after the ascending sort. -/
def sortDescByReversedCmp (app : App) (tickers : List HrTicker) : Option (List HrTicker) :=
  sortByM (fun a b => (cmpForColumn app.sort_column a b).map Ordering.swap) tickers

/-- The color chosen for the last-price cell. `rowFg` is the neutral
`app.colors.row_fg`. -/
inductive PriceColor where
  | green
  | red
  | rowFg
deriving DecidableEq

/-- The last-price cell coloring of `render_table` (src/main.rs lines
487-497): green when `c > previous_price`, red when `c < previous_price`,
the plain row foreground otherwise. -/
def last_price_color (ticker : HrTicker) : PriceColor :=
  if fgt ticker.c ticker.previous_price then PriceColor.green
  else if flt ticker.c ticker.previous_price then PriceColor.red
  else PriceColor.rowFg

/-- An inbound websocket event as seen by the reader loop of
`subscribe_to_ticker` (src/main.rs lines 119-126).  A `Text` frame carries
the result of `serde_json::from_str::<Vec<HrTicker>>` on its payload
(`none` when decoding fails); every other frame (binary, ping, transport
error) falls outside the `if let` and is skipped. -/
inductive WsMessage where
  | text (decoded : Option (List HrTicker))
  | other

/-- The reader loop of `subscribe_to_ticker` (src/main.rs lines 119-126)
over a finite prefix of the stream: forward each decoded batch, skip
non-Text events, and panic (`unwrap` on the decode error) on a Text frame
that fails to decode — modelled by `none`, which loses every later
message. -/
def bridge_loop : List WsMessage → Option (List (List HrTicker))
  | [] => some []
  | WsMessage.text none :: _ => none
  | WsMessage.text (some batch) :: rest => (bridge_loop rest).map (fun bs => batch :: bs)
  | WsMessage.other :: rest => bridge_loop rest

/-- A ticker record with every field at a base value; concrete records in
the theorems below override the fields they care about. -/
def baseTicker : HrTicker :=
  { e := "24hrTicker"
    E := 0
    s := ""
    p := F32.num 0
    P := F32.num 0
    w := F32.num 0
    c := F32.num 0
    Q := F32.num 0
    o := F32.num 0
    h := F32.num 0
    l := F32.num 0
    v := "0"
    q := "0"
    O := 0
    C := 0
    F := 0
    L := 0
    n := 0
    previous_price := F32.num 0 }

/-! ### Store lemmas -/

/-- An update for an unknown symbol falls through every `find` miss and is
pushed at the end of the vector. -/
theorem upsertOne_of_not_mem (ts : List HrTicker) (r : HrTicker)
    (hr : r.s ∉ ts.map (fun t => t.s)) : upsertOne ts r = ts ++ [r] := by
  induction ts with
  | nil => rfl
  | cons t ts ih =>
      simp only [List.map_cons, List.mem_cons, not_or] at hr
      have hne : ¬ t.s = r.s := fun hc => hr.1 hc.symm
      simp only [upsertOne, if_neg hne]
      rw [ih hr.2]
      rfl

theorem mergeTicker_s (t r : HrTicker) : (mergeTicker t r).s = t.s := rfl

/-- The upsert leaves the symbol column unchanged when the symbol is
already present, and appends it otherwise. -/
theorem map_s_upsertOne (ts : List HrTicker) (r : HrTicker) :
    (upsertOne ts r).map (fun t => t.s) =
      if r.s ∈ ts.map (fun t => t.s) then ts.map (fun t => t.s)
      else ts.map (fun t => t.s) ++ [r.s] := by
  induction ts with
  | nil => rfl
  | cons t ts ih =>
      by_cases h : t.s = r.s
      · simp [upsertOne, if_pos h, mergeTicker_s, h]
      · have hne : ¬ r.s = t.s := fun hc => h hc.symm
        simp only [upsertOne, if_neg h, List.map_cons, ih, List.mem_cons, hne, false_or]
        by_cases hm : r.s ∈ ts.map (fun t => t.s) <;> simp [hm]

/-- One upsert preserves symbol uniqueness. -/
theorem nodup_upsertOne (ts : List HrTicker) (r : HrTicker)
    (h : (ts.map (fun t => t.s)).Nodup) :
    ((upsertOne ts r).map (fun t => t.s)).Nodup := by
  rw [map_s_upsertOne]
  by_cases hm : r.s ∈ ts.map (fun t => t.s)
  · simpa [hm] using h
  · simp only [if_neg hm]
    exact h.append (List.nodup_singleton _)
      (fun a ha hb => by simp only [List.mem_singleton] at hb; exact hm (hb ▸ ha))

/-- A whole batch preserves symbol uniqueness. -/
theorem nodup_update_tickers (batch : List HrTicker) :
    ∀ ts : List HrTicker, (ts.map (fun t => t.s)).Nodup →
      ((update_tickers batch ts).map (fun t => t.s)).Nodup := by
  induction batch with
  | nil => intro ts h; exact h
  | cons r batch ih =>
      intro ts h
      exact ih (upsertOne ts r) (nodup_upsertOne ts r h)

/-- Records whose symbol differs from `r.s` are untouched by the
previous-price rewrite map used in the idempotence statement. -/
theorem map_prevFix_of_not_mem (r : HrTicker) (x : F32) :
    ∀ ts : List HrTicker, r.s ∉ ts.map (fun t => t.s) →
      ts.map (fun t => if t.s = r.s then { t with previous_price := x } else t) = ts := by
  intro ts
  induction ts with
  | nil => intro _; rfl
  | cons t ts ih =>
      intro h
      simp only [List.map_cons, List.mem_cons, not_or] at h
      have hne : ¬ t.s = r.s := fun hc => h.1 hc.symm
      simp only [List.map_cons, if_neg hne, ih h.2]

/-- Upsert into a store whose first record with the update's symbol is `o`
rewrites exactly that record with the merge rule. -/
theorem upsertOne_found (r o : HrTicker) (l₂ : List HrTicker) :
    ∀ l₁ : List HrTicker, (∀ x ∈ l₁, x.s ≠ r.s) → o.s = r.s →
      upsertOne (l₁ ++ o :: l₂) r = l₁ ++ mergeTicker o r :: l₂ := by
  intro l₁
  induction l₁ with
  | nil => intro _ ho; simp [upsertOne, if_pos ho]
  | cons x l₁ ih =>
      intro hx ho
      have hne : ¬ x.s = r.s := hx x (List.mem_cons_self _ _)
      simp only [List.cons_append, upsertOne, if_neg hne, List.append_eq]
      rw [ih (fun y hy => hx y (List.mem_cons_of_mem _ hy)) ho]

/-- Applying the same record a second time only refreshes the
previous-price carry of the record holding that symbol. -/
theorem upsertOne_twice (r : HrTicker) :
    ∀ ts : List HrTicker, (ts.map (fun t => t.s)).Nodup →
      upsertOne (upsertOne ts r) r =
        (upsertOne ts r).map
          (fun t => if t.s = r.s then { t with previous_price := r.c } else t) := by
  intro ts
  induction ts with
  | nil => intro _; simp [upsertOne, mergeTicker]
  | cons t ts ih =>
      intro hnd
      simp only [List.map_cons, List.nodup_cons] at hnd
      by_cases h : t.s = r.s
      · have hm : (mergeTicker t r).s = r.s := by rw [mergeTicker_s, h]
        simp only [upsertOne, if_pos h, if_pos hm, List.map_cons]
        have hts : r.s ∉ ts.map (fun t => t.s) := by rw [← h]; exact hnd.1
        rw [map_prevFix_of_not_mem r r.c ts hts]
        rfl
      · simp only [upsertOne, if_neg h, List.map_cons, if_neg h, ih hnd.2]

/-- In a duplicate-free store, every record carrying the upserted symbol
after the upsert holds the incoming last price. -/
theorem c_eq_of_mem_upsertOne (r : HrTicker) :
    ∀ ts : List HrTicker, (ts.map (fun t => t.s)).Nodup →
      ∀ t ∈ upsertOne ts r, t.s = r.s → t.c = r.c := by
  intro ts
  induction ts with
  | nil =>
      intro _ t ht _
      simp only [upsertOne, List.mem_singleton] at ht
      rw [ht]
  | cons x ts ih =>
      intro hnd t ht hts
      simp only [List.map_cons, List.nodup_cons] at hnd
      by_cases h : x.s = r.s
      · simp only [upsertOne, if_pos h, List.mem_cons] at ht
        rcases ht with ht | ht
        · rw [ht]; rfl
        · exfalso
          apply hnd.1
          rw [h, ← hts]
          exact List.mem_map_of_mem (fun t => t.s) ht
      · simp only [upsertOne, if_neg h, List.mem_cons] at ht
        rcases ht with ht | ht
        · exact absurd (ht ▸ hts) h
        · exact ih hnd.2 t ht hts

/-! ### Sorting lemmas -/

theorem natCmp_swap (a b : Nat) : natCmp b a = (natCmp a b).swap := by
  rcases Nat.lt_trichotomy a b with h | h | h
  · simp [natCmp, h, Nat.lt_asymm h, Nat.ne_of_gt h, Ordering.swap]
  · simp [natCmp, h, Ordering.swap]
  · simp [natCmp, h, Nat.lt_asymm h, Nat.ne_of_gt h, Nat.ne_of_lt h, Ordering.swap]

theorem charCmp_swap (a b : Char) : charCmp b a = (charCmp a b).swap :=
  natCmp_swap a.toNat b.toNat

theorem lexCmp_swap : ∀ as bs : List Char, lexCmp bs as = (lexCmp as bs).swap := by
  intro as
  induction as with
  | nil => intro bs; cases bs <;> rfl
  | cons a as ih =>
      intro bs
      cases bs with
      | nil => rfl
      | cons b bs =>
          simp only [lexCmp, charCmp_swap a b]
          cases charCmp a b <;> simp [Ordering.swap, ih bs]

/-- Inserting into a pairwise-ordered list under a total, swap-consistent
comparator succeeds, keeps the list pairwise ordered, and puts the new
element either in front or behind the old head. -/
theorem insertByM_sorted (cmp : HrTicker → HrTicker → Option Ordering)
    (h1 : ∀ x y, (cmp x y).isSome)
    (h2 : ∀ x y, cmp y x = (cmp x y).map Ordering.swap)
    (x : HrTicker) :
    ∀ l : List HrTicker,
      List.Chain' (fun u v => cmp u v ≠ some Ordering.gt) l →
      ∃ l', insertByM cmp x l = some l' ∧ l'.Perm (x :: l) ∧
        List.Chain' (fun u v => cmp u v ≠ some Ordering.gt) l' ∧
        (l'.head? = some x ∨ l'.head? = l.head?) := by
  intro l
  induction l with
  | nil =>
      intro _
      exact ⟨[x], rfl, List.Perm.refl _, List.chain'_singleton x, Or.inl rfl⟩
  | cons y ys ih =>
      intro hch
      obtain ⟨o, ho⟩ := Option.isSome_iff_exists.mp (h1 x y)
      have hchys : List.Chain' (fun u v => cmp u v ≠ some Ordering.gt) ys := hch.tail
      cases o with
      | lt =>
          refine ⟨x :: y :: ys, by simp [insertByM, ho], List.Perm.refl _, ?_, Or.inl rfl⟩
          exact List.chain'_cons.mpr ⟨by simp [ho], hch⟩
      | eq =>
          refine ⟨x :: y :: ys, by simp [insertByM, ho], List.Perm.refl _, ?_, Or.inl rfl⟩
          exact List.chain'_cons.mpr ⟨by simp [ho], hch⟩
      | gt =>
          obtain ⟨l'', heq, hperm, hsorted, hhead⟩ := ih hchys
          refine ⟨y :: l'', by simp [insertByM, ho, heq], ?_, ?_, Or.inr rfl⟩
          · exact (hperm.cons y).trans (List.Perm.swap x y ys)
          · rw [List.chain'_cons']
            refine ⟨?_, hsorted⟩
            intro w hw
            rcases hhead with hh | hh
            · rw [hh, Option.mem_def, Option.some_inj] at hw
              rw [← hw, h2 x y, ho]
              decide
            · rw [hh] at hw
              exact (List.chain'_cons'.mp hch).1 w hw

/-- `sortByM` under a total, swap-consistent comparator succeeds with a
pairwise-ordered permutation of its input. -/
theorem sortByM_sorted (cmp : HrTicker → HrTicker → Option Ordering)
    (h1 : ∀ x y, (cmp x y).isSome)
    (h2 : ∀ x y, cmp y x = (cmp x y).map Ordering.swap) :
    ∀ ts : List HrTicker, ∃ l, sortByM cmp ts = some l ∧ l.Perm ts ∧
      List.Chain' (fun u v => cmp u v ≠ some Ordering.gt) l := by
  intro ts
  induction ts with
  | nil => exact ⟨[], rfl, List.Perm.refl _, List.chain'_nil⟩
  | cons x xs ih =>
      obtain ⟨l, hl, hperm, hch⟩ := ih
      obtain ⟨l', hl', hperm', hch', _⟩ := insertByM_sorted cmp h1 h2 x l hch
      refine ⟨l', ?_, ?_, hch'⟩
      · simp [sortByM, hl, hl']
      · exact hperm'.trans (hperm.cons x)

/-! ### Selection lemmas -/

/-- With a valid selection on a non-empty table, `next` advances the
selection by one modulo the row count and the scroll position by one. -/
theorem next_of_selected (a : App) (i : Nat) (h : a.selected = some i)
    (hlt : i < a.ticker_length) :
    App.next a = some { a with selected := some ((i + 1) % a.ticker_length)
                               scroll_position := a.scroll_position + 1 } := by
  have hN : 0 < a.ticker_length := Nat.lt_of_le_of_lt (Nat.zero_le i) hlt
  have hsub : checkedSub a.ticker_length 1 = some (a.ticker_length - 1) := by
    have h1 : 1 ≤ a.ticker_length := hN
    simp [checkedSub, h1]
  have hj : (if a.ticker_length - 1 ≤ i then 0 else i + 1) = (i + 1) % a.ticker_length := by
    by_cases hc : a.ticker_length - 1 ≤ i
    · have hi : i + 1 = a.ticker_length := by omega
      simp [hc, hi, Nat.mod_self]
    · have hi : i + 1 < a.ticker_length := by omega
      simp [hc, Nat.mod_eq_of_lt hi]
  simp only [App.next, h, hsub, ITEM_HEIGHT, hj]

/-- Iterating `next` from a valid selection advances the selection by `k`
modulo the row count. -/
theorem nextIter_mod : ∀ (k : Nat) (a : App) (i : Nat),
    a.selected = some i → i < a.ticker_length →
    nextIter k a = some { a with selected := some ((i + k) % a.ticker_length)
                                 scroll_position := a.scroll_position + k } := by
  intro k
  induction k with
  | zero =>
      intro a i h hlt
      obtain ⟨mo, sel, sc, ci, tl, sh, fc, so, scol, pp⟩ := a
      have h' : sel = some i := h
      subst h'
      have hlt' : i < tl := hlt
      simp [nextIter, Nat.mod_eq_of_lt hlt']
  | succ k ih =>
      intro a i h hlt
      obtain ⟨mo, sel, sc, ci, tl, sh, fc, so, scol, pp⟩ := a
      have h' : sel = some i := h
      subst h'
      have hlt' : i < tl := hlt
      have hN : 0 < tl := Nat.lt_of_le_of_lt (Nat.zero_le i) hlt'
      have hstep :
          App.next ⟨mo, some i, sc, ci, tl, sh, fc, so, scol, pp⟩ =
            some ⟨mo, some ((i + 1) % tl), sc + 1, ci, tl, sh, fc, so, scol, pp⟩ :=
        next_of_selected _ i rfl hlt'
      have hrec := ih ⟨mo, some ((i + 1) % tl), sc + 1, ci, tl, sh, fc, so, scol, pp⟩
        ((i + 1) % tl) rfl (Nat.mod_lt _ hN)
      have hsel : ((i + 1) % tl + k) % tl = (i + (k + 1)) % tl := by
        rw [Nat.mod_add_mod]
        congr 1
        omega
      have hsc : sc + 1 + k = sc + (k + 1) := by omega
      simp only [nextIter, hstep, Option.some_bind]
      rw [hrec, hsel, hsc]

/-! ### Concrete records used in witnesses and counterexamples -/

def tickBTC : HrTicker := { baseTicker with s := "BTCUSDT", c := F32.num 50000, E := 1 }

def tickBTC2 : HrTicker := { baseTicker with s := "BTCUSDT", c := F32.num 50500, E := 2 }

def tickETH : HrTicker := { baseTicker with s := "ETHUSDT", c := F32.num 3000 }

/-! ### Claims -/

/-- C1 (amended): upserting a record whose symbol is already stored
rewrites the first stored record with that symbol in place: the fields
`p P w c Q o h l v q O C F L n` are replaced by the incoming values,
`previous_price` is set to the stored record's pre-update last price, and
the symbol `s` — but also the event type `e` and the event time `E` —
keep their stored values. -/
theorem c1_merge_replaces_fields (l₁ l₂ : List HrTicker) (o r : HrTicker)
    (h₁ : ∀ x ∈ l₁, x.s ≠ r.s) (ho : o.s = r.s) :
    update_tickers [r] (l₁ ++ o :: l₂) = l₁ ++ mergeTicker o r :: l₂ ∧
    (mergeTicker o r).previous_price = o.c ∧
    (mergeTicker o r).s = o.s ∧ (mergeTicker o r).e = o.e ∧ (mergeTicker o r).E = o.E ∧
    (mergeTicker o r).p = r.p ∧ (mergeTicker o r).P = r.P ∧ (mergeTicker o r).w = r.w ∧
    (mergeTicker o r).c = r.c ∧ (mergeTicker o r).Q = r.Q ∧ (mergeTicker o r).o = r.o ∧
    (mergeTicker o r).h = r.h ∧ (mergeTicker o r).l = r.l ∧ (mergeTicker o r).v = r.v ∧
    (mergeTicker o r).q = r.q ∧ (mergeTicker o r).O = r.O ∧ (mergeTicker o r).C = r.C ∧
    (mergeTicker o r).F = r.F ∧ (mergeTicker o r).L = r.L ∧ (mergeTicker o r).n = r.n :=
  ⟨upsertOne_found r o l₂ l₁ h₁ ho, rfl, rfl, rfl, rfl, rfl, rfl, rfl, rfl, rfl,
   rfl, rfl, rfl, rfl, rfl, rfl, rfl, rfl, rfl, rfl⟩

/-- Witness for C1 at a one-record store. -/
theorem c1_merge_replaces_fields_witness :
    update_tickers [tickBTC2] [tickBTC] = [mergeTicker tickBTC tickBTC2] :=
  (c1_merge_replaces_fields [] [] tickBTC tickBTC2 (by simp) rfl).1

/-- Counterexample to C1 as stated: the event-time field `E` is a field
other than `previous_price` and the symbol, yet it keeps the stored value
1 instead of the incoming value 2. -/
theorem c1_event_time_not_replaced :
    (update_tickers [tickBTC2] [tickBTC]).map (fun t => t.E) = [1] ∧ tickBTC2.E = 2 := by
  constructor
  · decide
  · rfl

/-- C2: starting from the empty store, any sequence of batches keeps the
symbol column duplicate-free; an update for an unknown symbol appends a
new record, one for a known symbol rewrites in place (the symbol column
is unchanged). -/
theorem c2_key_uniqueness :
    (∀ batches : List (List HrTicker), ((ingest batches).map (fun t => t.s)).Nodup) ∧
    (∀ (ts : List HrTicker) (r : HrTicker), r.s ∉ ts.map (fun t => t.s) →
      update_tickers [r] ts = ts ++ [r]) ∧
    (∀ (ts : List HrTicker) (r : HrTicker), r.s ∈ ts.map (fun t => t.s) →
      (update_tickers [r] ts).map (fun t => t.s) = ts.map (fun t => t.s)) := by
  refine ⟨?_, ?_, ?_⟩
  · intro batches
    suffices hgen : ∀ (bs : List (List HrTicker)) (ts : List HrTicker),
        (ts.map (fun t => t.s)).Nodup →
        ((bs.foldl (fun store batch => update_tickers batch store) ts).map
          (fun t => t.s)).Nodup by
      exact hgen batches [] (by simp)
    intro bs
    induction bs with
    | nil => intro ts h; exact h
    | cons b bs ih => intro ts h; exact ih _ (nodup_update_tickers b ts h)
  · intro ts r h
    exact upsertOne_of_not_mem ts r h
  · intro ts r h
    have hmap := map_s_upsertOne ts r
    rw [if_pos h] at hmap
    exact hmap

/-- Witness for C2 at concrete stores. -/
theorem c2_key_uniqueness_witness :
    ((ingest [[tickBTC], [tickBTC2]]).map (fun t => t.s)).Nodup ∧
    update_tickers [tickETH] [tickBTC] = [tickBTC] ++ [tickETH] ∧
    (update_tickers [tickBTC2] [tickBTC]).map (fun t => t.s) =
      [tickBTC].map (fun t => t.s) :=
  ⟨c2_key_uniqueness.1 [[tickBTC], [tickBTC2]],
   c2_key_uniqueness.2.1 [tickBTC] tickETH (by decide),
   c2_key_uniqueness.2.2 [tickBTC] tickBTC2 (by decide)⟩

/-- C8: on a duplicate-free store, applying the same record twice in a
row yields the store of the single application, except that the record
holding that symbol has its `previous_price` refreshed to the incoming
last price (which is exactly the last price stored just before the second
application). -/
theorem c8_merge_idempotence (ts : List HrTicker) (r : HrTicker)
    (hnd : (ts.map (fun t => t.s)).Nodup) :
    update_tickers [r] (update_tickers [r] ts) =
      (update_tickers [r] ts).map
        (fun t => if t.s = r.s then { t with previous_price := r.c } else t) ∧
    ∀ t ∈ update_tickers [r] ts, t.s = r.s → t.c = r.c :=
  ⟨upsertOne_twice r ts hnd, c_eq_of_mem_upsertOne r ts hnd⟩

/-- Witness for C8 at a one-record store. -/
theorem c8_merge_idempotence_witness :
    update_tickers [tickBTC2] (update_tickers [tickBTC2] [tickBTC]) =
      (update_tickers [tickBTC2] [tickBTC]).map
        (fun t => if t.s = tickBTC2.s then { t with previous_price := tickBTC2.c } else t) :=
  (c8_merge_idempotence [tickBTC] tickBTC2 (by decide)).1

/-- C10: a record deserialized with the `previous_price` serde default
and inserted under an unknown symbol is stored as-is, and its last-price
cell is colored green (up) exactly when its last price is positive —
independent of any actual price movement. -/
theorem c10_fresh_insert_colored_up (ts : List HrTicker) (r : HrTicker) (a : ℚ)
    (hprev : r.previous_price = default_previous_price)
    (hnew : r.s ∉ ts.map (fun t => t.s))
    (hc : r.c = F32.num a) :
    update_tickers [r] ts = ts ++ [r] ∧
    (last_price_color r = PriceColor.green ↔ 0 < a) := by
  refine ⟨upsertOne_of_not_mem ts r hnew, ?_⟩
  rw [default_previous_price] at hprev
  simp only [last_price_color, hprev, hc, fgt, flt]
  by_cases h : 0 < a
  · simp [h]
  · by_cases h2 : a < 0 <;> simp [h, h2]

def tickNew : HrTicker := { baseTicker with s := "NEWUSDT", c := F32.num 7 }

/-- Witness for C10 at the empty store. -/
theorem c10_fresh_insert_colored_up_witness :
    update_tickers [tickNew] [] = [] ++ [tickNew] ∧
    (last_price_color tickNew = PriceColor.green ↔ (0 : ℚ) < 7) :=
  c10_fresh_insert_colored_up [] tickNew 7 rfl (by decide) rfl

def appLast : App := { App.new with sort_column := SortColumn.Last }

def tickOne : HrTicker := { baseTicker with s := "AAAUSDT", c := F32.num 1 }

def tickNaN : HrTicker := { baseTicker with s := "NANUSDT", c := F32.nan }

/-- C3 (code bug): with sort column Last and a NaN last price in the
snapshot, the comparator `partial_cmp(..).unwrap()` panics — the sort
does not treat NaN as greatest and does not complete. -/
theorem c3_nan_sort_panics :
    App.sort_tickers appLast [tickOne, tickNaN] = none := by
  decide

def appC4sel : App :=
  { mode := Mode.Running, selected := some 1, scroll_position := 0, color_index := 0
    ticker_length := 3, show_chart := false, fetched_chart := none
    sort_order := SortOrder.Ascending, sort_column := SortColumn.Symbol
    previous_prices := [] }

def appC4empty : App :=
  { mode := Mode.Running, selected := none, scroll_position := 0, color_index := 0
    ticker_length := 0, show_chart := false, fetched_chart := none
    sort_order := SortOrder.Ascending, sort_column := SortColumn.Symbol
    previous_prices := [] }

/-- C4 (amended): from a valid selection i < N on N rows, N calls of
next() return the selection to i (advancing the scroll by N); with N = 0
and no selection, next() selects row 0 instead of leaving the selection at
none, and previous() at scroll position 0 stops on an arithmetic
underflow. -/
theorem c4_wraparound_amended :
    (∀ (a : App) (i : Nat), a.selected = some i → i < a.ticker_length →
      nextIter a.ticker_length a =
        some { a with selected := some i
                      scroll_position := a.scroll_position + a.ticker_length }) ∧
    (∀ a : App, a.ticker_length = 0 → a.selected = none →
      App.next a = some { a with selected := some 0
                                 scroll_position := a.scroll_position + 1 }) ∧
    (∀ a : App, a.ticker_length = 0 → a.selected = none → a.scroll_position = 0 →
      App.previous a = none) := by
  refine ⟨?_, ?_, ?_⟩
  · intro a i h hlt
    have hmod := nextIter_mod a.ticker_length a i h hlt
    rwa [Nat.add_mod_right, Nat.mod_eq_of_lt hlt] at hmod
  · intro a _ h
    simp [App.next, h, ITEM_HEIGHT]
  · intro a _ h hsc
    simp [App.previous, h, hsc, checkedSub, ITEM_HEIGHT]

/-- Witness for C4: three rows starting at index 1, and the empty table. -/
theorem c4_wraparound_amended_witness :
    nextIter 3 appC4sel = some { appC4sel with selected := some 1
                                               scroll_position := 0 + 3 } ∧
    App.previous appC4empty = none :=
  ⟨c4_wraparound_amended.1 appC4sel 1 rfl (by decide),
   c4_wraparound_amended.2.2 appC4empty rfl rfl rfl⟩

/-- Counterexample to C4 as stated: with zero rows and no selection, one
next() sets the selection to row 0 — it does not stay at none. -/
theorem c4_empty_next_selects_zero :
    App.next appC4empty = some { appC4empty with selected := some 0
                                                 scroll_position := 1 } ∧
    some 0 ≠ (none : Option Nat) := by
  constructor
  · decide
  · decide

/-- C5 (code bug): a Text frame that fails to decode panics the reader
task of the bridge (the `unwrap` of `serde_json::from_str`), so no later
message of the stream is forwarded — the message is not dropped with
processing continuing. -/
theorem c5_decode_failure_kills_bridge (rest : List WsMessage) :
    bridge_loop (WsMessage.text none :: rest) = none := rfl

def appLastDesc : App :=
  { App.new with sort_column := SortColumn.Last, sort_order := SortOrder.Descending }

def tieA : HrTicker := { baseTicker with s := "AAAUSDT", c := F32.num 1, v := "5" }

def tieB : HrTicker := { baseTicker with s := "BBBUSDT", c := F32.num 1, v := "7" }

/-- C6: a Descending view is the Ascending column sort followed by a
global reversal of the whole sequence; on a tie (equal last prices) the
rows therefore appear in the reverse of their ascending order, unlike
under a reversed-comparator sort, which would keep the ascending order of
the tied rows. -/
theorem c6_descending_is_global_reverse :
    (∀ (a : App) (ts : List HrTicker),
      App.sort_tickers { a with sort_order := SortOrder.Descending } ts =
        (App.sort_tickers { a with sort_order := SortOrder.Ascending } ts).map
          List.reverse) ∧
    App.sort_tickers appLastDesc [tieA, tieB] = some [tieB, tieA] ∧
    sortDescByReversedCmp appLastDesc [tieA, tieB] = some [tieA, tieB] ∧
    tieA ≠ tieB := by
  refine ⟨?_, by decide, by decide, by decide⟩
  intro a ts
  simp only [App.sort_tickers]
  cases hs : sortByM (cmpForColumn a.sort_column) ts <;> simp [hs]

def appVolume : App := { App.new with sort_column := SortColumn.Volume }

def vol9 : HrTicker := { baseTicker with s := "AAAUSDT", v := "9" }

def vol10 : HrTicker := { baseTicker with s := "BBBUSDT", v := "10" }

/-- C7: with sort column Volume (ascending) the derived rows are a
permutation of the snapshot in which adjacent rows are ordered by
lexicographic comparison of the `v` display string; concretely, the
volume string "10" sorts before "9" although 9 < 10 numerically. -/
theorem c7_volume_sort_lexicographic :
    (∀ (a : App) (ts : List HrTicker), ∃ l,
      App.sort_tickers { a with sort_column := SortColumn.Volume
                                sort_order := SortOrder.Ascending } ts = some l ∧
      l.Perm ts ∧
      List.Chain' (fun x y => lexCmp x.v.data y.v.data ≠ Ordering.gt) l) ∧
    App.sort_tickers appVolume [vol9, vol10] = some [vol10, vol9] ∧
    lexCmp "10".data "9".data = Ordering.lt := by
  refine ⟨?_, by decide, by decide⟩
  intro a ts
  have h1 : ∀ x y : HrTicker,
      ((fun x y : HrTicker => some (lexCmp x.v.data y.v.data)) x y).isSome :=
    fun _ _ => rfl
  have h2 : ∀ x y : HrTicker,
      (fun x y : HrTicker => some (lexCmp x.v.data y.v.data)) y x =
        ((fun x y : HrTicker => some (lexCmp x.v.data y.v.data)) x y).map Ordering.swap := by
    intro x y
    show some (lexCmp y.v.data x.v.data) = (some (lexCmp x.v.data y.v.data)).map Ordering.swap
    rw [lexCmp_swap x.v.data y.v.data]
    rfl
  obtain ⟨l, hl, hperm, hch⟩ :=
    sortByM_sorted (fun x y : HrTicker => some (lexCmp x.v.data y.v.data)) h1 h2 ts
  have hl' : sortByM (cmpForColumn SortColumn.Volume) ts = some l := hl
  refine ⟨l, ?_, hperm, ?_⟩
  · simp [App.sort_tickers, hl']
  · exact List.Chain'.imp (fun x y hxy => by simpa using hxy) hch

/-- C9 (amended): the startup state has sort column Symbol, sort order
Ascending, no selection and the plain (non-chart) table mode — but
palette index 2, not 0 (only the initial `colors` value is built from
palette 0, and it is rebuilt from `color_index` on the first frame). -/
theorem c9_startup_defaults :
    App.new.sort_column = SortColumn.Symbol ∧
    App.new.sort_order = SortOrder.Ascending ∧
    App.new.selected = none ∧
    App.new.show_chart = false ∧
    App.new.mode = Mode.Running ∧
    App.new.color_index = 2 :=
  ⟨rfl, rfl, rfl, rfl, rfl, rfl⟩

/-- Counterexample to C9 as stated: the startup palette index is 2, not
0. -/
theorem c9_palette_index_not_zero :
    App.new.color_index = 2 ∧ App.new.color_index ≠ 0 := by
  constructor
  · rfl
  · decide
